import Mathlib

/-!
Verification of the SSM (saturation mutagenesis scan) pipeline of
`v2_ssm.py` (ThermoMPNN-D).  Real-valued tensors are modelled over `ℚ`;
the IEEE NaN marker used by the code for "invalid" entries is modelled
with `Option` (`none` = NaN).  Grids are modelled as functions from
`Nat` indices, lists of records model the rows of the output dataframe.
The neural network itself (encoder, attention, prediction head) is the
external black box of the spec and enters only as opaque parameters.
-/

namespace ThermoMPNN

/-- Embedding of `ALPHABET = 'ACDEFGHIKLMNPQRSTVWYX'` from `v2_ssm.py`. -/
def ALPHABET : List Char :=
  ['A','C','D','E','F','G','H','I','K','L','M','N','P','Q','R','S','T','V','W','Y','X']

/-- Embedding of the wild-type-normalization step of `run_single_ssm`
(`wt_ddg = batched_index_select(ddg, dim=-1, index=S); ddg = ddg - wt_ddg.expand(-1, 21)`):
entry `(p, a)` of the normalized grid is `ddg[p, a] - ddg[p, S[p]]`, where `S p` is the
integer code of the wild-type amino acid at position `p`. -/
def normalize_ddg (ddg : Nat → Nat → ℚ) (S : Nat → Nat) : Nat → Nat → ℚ :=
  fun p a => ddg p a - ddg p (S p)

/-- Embedding of `expand_additive`: broadcast sum `ddgA + ddgB` of an `[L, 21]`
single-mutant grid with itself, followed by the loop
`for i in range(dims[0]): ddg[i, :, i, :] = torch.nan` that marks every
same-position pair as NaN (`none`). -/
def expand_additive (ddg : Nat → Nat → ℚ) : Nat → Nat → Nat → Nat → Option ℚ :=
  fun p1 a1 p2 a2 => if p1 = p2 then none else some (ddg p1 a1 + ddg p2 a2)

/-- C4: after the wild-type-normalization step of the single-mutation sweep, the
entry of the normalized ddG grid at `(p, wild-type amino acid at p)` is zero. -/
theorem C4_wildtype_normalization_zero (ddg : Nat → Nat → ℚ) (S : Nat → Nat) (p : Nat) :
    normalize_ddg ddg S p (S p) = 0 := by
  simp [normalize_ddg]

/-- C5: the additive expansion of a single-mutation grid has entry
`ddg[p1, a1] + ddg[p2, a2]` whenever `p1 ≠ p2`, and is NaN (`none`, marked
invalid) whenever `p1 = p2`. -/
theorem C5_expand_additive_spec (ddg : Nat → Nat → ℚ) (p1 a1 p2 a2 : Nat) :
    (p1 ≠ p2 → expand_additive ddg p1 a1 p2 a2 = some (ddg p1 a1 + ddg p2 a2)) ∧
    (p1 = p2 → expand_additive ddg p1 a1 p2 a2 = none) := by
  constructor
  · intro h
    simp [expand_additive, h]
  · intro h
    simp [expand_additive, h]

/-- Witness for C5 at a concrete grid and concrete indices. -/
theorem C5_expand_additive_witness :
    ((0 : Nat) ≠ 1 →
      expand_additive (fun _ _ => (1 : ℚ)) 0 5 1 7 = some ((1 : ℚ) + (1 : ℚ))) ∧
    ((0 : Nat) ≠ 1) := by
  refine ⟨?_, by decide⟩
  exact (C5_expand_additive_spec (fun _ _ => (1 : ℚ)) 0 5 1 7).1

/-- One row of the triple `(pos_combos, wtAA, mutAA)` returned by
`get_ssm_mutations_double`: positions, wild-type AA codes and mutant AA codes
of the two sites of a double mutation. -/
structure DoubleMut where
  p1 : Nat
  p2 : Nat
  w1 : Nat
  w2 : Nat
  m1 : Nat
  m2 : Nat
deriving DecidableEq

/-- Embedding of Python `ALPHABET.index(c)` (first index of `c` in the alphabet). -/
def alphaIndex (c : Char) : Nat := ALPHABET.findIdx (fun x => x = c)

/-- Embedding of the `MUT_POS` list built by `get_ssm_mutations_double`: the
positions of `pdb['seq']` whose residue is not the gap symbol `'-'`. -/
def MUT_POS (seq : List Char) : List Nat :=
  (List.range seq.length).filter (fun p => seq.getD p '-' ≠ '-')

/-- Embedding of `pos_combos = [p for p in product(MUT_POS, MUT_POS) if p[0] != p[1]]`. -/
def pos_combos (seq : List Char) : List (Nat × Nat) :=
  ((MUT_POS seq).flatMap (fun p => (MUT_POS seq).map (fun q => (p, q)))).filter
    (fun pq => pq.1 ≠ pq.2)

/-- Embedding of the broadcast base `mutAA`
(`one = np.arange(20).repeat(20); two = np.tile(np.arange(20), 20)`): all 400
mutant-AA code pairs `(a1, a2)` with `a1, a2 < 20`, in row-major order. -/
def mutAA_pairs : List (Nat × Nat) :=
  (List.range 20).flatMap (fun a1 => (List.range 20).map (fun a2 => (a1, a2)))

/-- Embedding of `get_ssm_mutations_double`.  Each ordered position pair is
repeated 400 times (`np.repeat(..., 400, axis=0)`) against the tiled mutant-AA
bundle, then rows where either mutant equals its own wild type are dropped
(`mask = np.sum(mutAA == wtAA, -1).astype(bool)`), then rows with
`pos_combos[:, 0] > pos_combos[:, 1]` are dropped.  `mkRow` builds one row of
the bundle from an ordered position pair and a mutant-AA pair. -/
def mkRow (seq : List Char) (pq ab : Nat × Nat) : DoubleMut :=
  { p1 := pq.1, p2 := pq.2
    w1 := alphaIndex (seq.getD pq.1 '-'), w2 := alphaIndex (seq.getD pq.2 '-')
    m1 := ab.1, m2 := ab.2 }

def get_ssm_mutations_double (seq : List Char) : List DoubleMut :=
  (((pos_combos seq).flatMap (fun pq => mutAA_pairs.map (mkRow seq pq))).filter
      (fun r => !(r.m1 = r.w1 ∨ r.m2 = r.w2 : Bool))).filter
    (fun r => !(r.p1 > r.p2 : Bool))

lemma mem_MUT_POS {seq : List Char} {p : Nat} :
    p ∈ MUT_POS seq ↔ seq.getD p '-' ≠ '-' := by
  unfold MUT_POS
  rw [List.mem_filter]
  constructor
  · intro h
    simpa using h.2
  · intro h
    have hlt : p < seq.length := by
      by_contra hge
      exact h (seq.getD_eq_default '-' (Nat.le_of_not_lt hge))
    exact ⟨List.mem_range.2 hlt, by simpa using h⟩

lemma nodup_MUT_POS (seq : List Char) : (MUT_POS seq).Nodup :=
  (List.nodup_range _).filter _

lemma nodup_pos_combos (seq : List Char) : (pos_combos seq).Nodup := by
  have h : ((MUT_POS seq) ×ˢ (MUT_POS seq)).Nodup :=
    (nodup_MUT_POS seq).product (nodup_MUT_POS seq)
  exact h.filter _

lemma mem_pos_combos {seq : List Char} (x y : Nat) :
    (x, y) ∈ pos_combos seq ↔ x ∈ MUT_POS seq ∧ y ∈ MUT_POS seq ∧ x ≠ y := by
  show (x, y) ∈ ((MUT_POS seq) ×ˢ (MUT_POS seq)).filter _ ↔ _
  rw [List.mem_filter, List.mem_product]
  simp only [decide_eq_true_eq]
  tauto

lemma nodup_mutAA_pairs : mutAA_pairs.Nodup := by
  have h : ((List.range 20) ×ˢ (List.range 20)).Nodup :=
    (List.nodup_range 20).product (List.nodup_range 20)
  exact h

lemma mem_mutAA_pairs (x y : Nat) :
    (x, y) ∈ mutAA_pairs ↔ x < 20 ∧ y < 20 := by
  show (x, y) ∈ (List.range 20) ×ˢ (List.range 20) ↔ _
  rw [List.mem_product]
  simp [List.mem_range]

lemma countP_beq_eq_one {α : Type} [BEq α] [LawfulBEq α] {l : List α} (h : l.Nodup)
    {x : α} (hx : x ∈ l) : l.countP (fun y => y == x) = 1 := by
  induction l with
  | nil => cases hx
  | cons y l ih =>
      rw [List.countP_cons]
      rcases List.mem_cons.1 hx with rfl | hxl
      · have h0 : l.countP (fun z => z == x) = 0 :=
          List.countP_eq_zero.2 fun z hz hzx =>
            (List.nodup_cons.1 h).1 (eq_of_beq hzx ▸ hz)
        simp [h0]
      · have hxy : (y == x) = false := by
          refine beq_eq_false_iff_ne.2 fun hyx => ?_
          exact (List.nodup_cons.1 h).1 (hyx ▸ hxl)
        simp [ih (List.nodup_cons.1 h).2 hxl, hxy]

lemma sum_map_indicator {α : Type} [DecidableEq α] (x : α) (l : List α) :
    (l.map (fun y => if y = x then 1 else 0)).sum = l.count x := by
  induction l with
  | nil => simp
  | cons y l ih =>
      simp only [List.map_cons, List.sum_cons, List.count_cons, ih, beq_iff_eq]
      omega

/-- Canonical ordering of every enumerated double mutation: the first position
is strictly smaller than the second. -/
lemma enumerated_pos_lt {seq : List Char} {r : DoubleMut}
    (h : r ∈ get_ssm_mutations_double seq) : r.p1 < r.p2 := by
  unfold get_ssm_mutations_double at h
  rw [List.mem_filter] at h
  obtain ⟨h, hle⟩ := h
  rw [List.mem_filter] at h
  obtain ⟨h, -⟩ := h
  rw [List.mem_flatMap] at h
  obtain ⟨pq, hpq, hr⟩ := h
  rw [List.mem_map] at hr
  obtain ⟨ab, -, hr⟩ := hr
  have hne : pq.1 ≠ pq.2 := by
    obtain ⟨x, y⟩ := pq
    exact ((mem_pos_combos x y).1 hpq).2.2
  have hp1 : r.p1 = pq.1 := by rw [← hr]; rfl
  have hp2 : r.p2 = pq.2 := by rw [← hr]; rfl
  simp only [Bool.not_eq_eq_eq_not, Bool.not_true, decide_eq_false_iff_not, not_lt] at hle
  rw [hp1, hp2] at hle ⊢
  exact Nat.lt_of_le_of_ne hle hne

/-- Matching predicate of claim C3: `r` is an enumerator row that represents
the double mutation installing mutant code `a` at position `p` and mutant code
`b` at position `q`, in either stored order. -/
def matchesPair (p q a b : Nat) (r : DoubleMut) : Bool :=
  (r.p1 == p && r.p2 == q && r.m1 == a && r.m2 == b) ||
  (r.p1 == q && r.p2 == p && r.m1 == b && r.m2 == a)

lemma matchesPair_comm (p q a b : Nat) (r : DoubleMut) :
    matchesPair p q a b r = matchesPair q p b a r := by
  simp only [matchesPair]
  exact Bool.or_comm _ _

lemma countP_matchesPair_of_lt {seq : List Char} {p q a b : Nat}
    (hp : seq.getD p '-' ≠ '-') (hq : seq.getD q '-' ≠ '-') (hlt : p < q)
    (ha : a < 20) (hb : b < 20)
    (hwa : a ≠ alphaIndex (seq.getD p '-')) (hwb : b ≠ alphaIndex (seq.getD q '-')) :
    (get_ssm_mutations_double seq).countP (matchesPair p q a b) = 1 := by
  unfold get_ssm_mutations_double
  rw [List.countP_filter, List.countP_filter, List.countP_flatMap]
  have hcongr : ∀ pq ∈ pos_combos seq,
      (List.countP
          (fun r => (matchesPair p q a b r && !(r.p1 > r.p2 : Bool)) &&
            !(r.m1 = r.w1 ∨ r.m2 = r.w2 : Bool)) ∘
        fun pq => mutAA_pairs.map (mkRow seq pq)) pq
        = (fun pq => if pq = (p, q) then 1 else 0) pq := by
    intro pq hmem
    simp only [Function.comp_apply, List.countP_map]
    by_cases hcase : pq = (p, q)
    · subst hcase
      rw [if_pos rfl]
      rw [List.countP_congr (q := fun ab => ab == (a, b))]
      · exact countP_beq_eq_one nodup_mutAA_pairs
          ((mem_mutAA_pairs a b).2 ⟨ha, hb⟩)
      · intro ab hab
        obtain ⟨a1, a2⟩ := ab
        simp only [Function.comp_apply, matchesPair, mkRow, Bool.and_eq_true,
          Bool.or_eq_true, beq_iff_eq, Bool.not_eq_eq_eq_not, Bool.not_true,
          decide_eq_false_iff_not, not_or, not_lt, Prod.mk.injEq]
        constructor
        · rintro ⟨⟨hm, -⟩, -⟩
          rcases hm with ⟨⟨-, h1⟩, h2⟩ | ⟨⟨⟨hpq1, -⟩, -⟩, -⟩
          · exact ⟨h1, h2⟩
          · exact absurd hpq1 hlt.ne
        · rintro ⟨h1, h2⟩
          subst h1
          subst h2
          exact ⟨⟨Or.inl ⟨⟨⟨True.intro, True.intro⟩, rfl⟩, rfl⟩, hlt.le⟩, hwa, hwb⟩
    · rw [if_neg hcase]
      rw [List.countP_eq_zero]
      intro ab hab hcontra
      simp only [Function.comp_apply, matchesPair, mkRow, Bool.and_eq_true,
        Bool.or_eq_true, beq_iff_eq, Bool.not_eq_eq_eq_not, Bool.not_true,
        decide_eq_false_iff_not, not_or, not_lt] at hcontra
      obtain ⟨⟨hm, hle⟩, -⟩ := hcontra
      rcases hm with ⟨⟨⟨e1, e2⟩, -⟩, -⟩ | ⟨⟨⟨e1, e2⟩, -⟩, -⟩
      · exact hcase (Prod.ext e1 e2)
      · rw [e1, e2] at hle
        exact absurd hle (not_le.mpr hlt)
  rw [List.map_congr_left hcongr, sum_map_indicator]
  exact List.count_eq_one_of_mem (nodup_pos_combos seq)
    ((mem_pos_combos p q).2 ⟨mem_MUT_POS.2 hp, mem_MUT_POS.2 hq, hlt.ne⟩)

/-- C3: for every input sequence, each unordered pair of distinct non-gap
positions together with each valid mutant-amino-acid combination appears in
exactly one entry of the double-mutation enumerator's output, and that entry
stores its positions in canonical order (first strictly smaller). -/
theorem C3_double_enumeration_unique_canonical {seq : List Char} {p q a b : Nat}
    (hp : seq.getD p '-' ≠ '-') (hq : seq.getD q '-' ≠ '-') (hpq : p ≠ q)
    (ha : a < 20) (hb : b < 20)
    (hwa : a ≠ alphaIndex (seq.getD p '-')) (hwb : b ≠ alphaIndex (seq.getD q '-')) :
    (get_ssm_mutations_double seq).countP (matchesPair p q a b) = 1 ∧
    ∀ r ∈ get_ssm_mutations_double seq, matchesPair p q a b r = true → r.p1 < r.p2 := by
  refine ⟨?_, fun r hr _ => enumerated_pos_lt hr⟩
  rcases Nat.lt_or_ge p q with hlt | hge
  · exact countP_matchesPair_of_lt hp hq hlt ha hb hwa hwb
  · have hlt : q < p := Nat.lt_of_le_of_ne hge (Ne.symm hpq)
    rw [List.countP_congr (q := matchesPair q p b a)
      (fun r _ => by rw [matchesPair_comm])]
    exact countP_matchesPair_of_lt hq hp hlt hb ha hwb hwa

/-- Witness for C3 on the concrete sequence "ACD" with the unordered position
pair {0, 2} and mutant pair (C at 0, A at 2). -/
theorem C3_double_enumeration_witness :
    (['A', 'C', 'D'].getD 0 '-' ≠ '-') ∧ ((0 : Nat) ≠ 2) ∧
    ((get_ssm_mutations_double ['A', 'C', 'D']).countP (matchesPair 0 2 1 0) = 1 ∧
      ∀ r ∈ get_ssm_mutations_double ['A', 'C', 'D'],
        matchesPair 0 2 1 0 r = true → r.p1 < r.p2) :=
  ⟨by decide, by decide,
    C3_double_enumeration_unique_canonical (by decide) (by decide) (by decide)
      (by decide) (by decide) (by decide) (by decide)⟩

/-- C7: every double mutation returned by the epistatic enumerator has, at each
of its two sites, a mutant amino acid different from that site's wild-type
amino acid. -/
theorem C7_no_self_mutation_double (seq : List Char) (r : DoubleMut)
    (h : r ∈ get_ssm_mutations_double seq) : r.m1 ≠ r.w1 ∧ r.m2 ≠ r.w2 := by
  unfold get_ssm_mutations_double at h
  simp only [List.mem_filter] at h
  obtain ⟨⟨-, hns⟩, -⟩ := h
  simpa [not_or] using hns

/-- Witness for C7 on the concrete sequence "AC". -/
theorem C7_no_self_mutation_witness :
    (⟨0, 1, 0, 1, 1, 0⟩ : DoubleMut) ∈ get_ssm_mutations_double ['A', 'C'] ∧
    (⟨0, 1, 0, 1, 1, 0⟩ : DoubleMut).m1 ≠ (⟨0, 1, 0, 1, 1, 0⟩ : DoubleMut).w1 ∧
    (⟨0, 1, 0, 1, 1, 0⟩ : DoubleMut).m2 ≠ (⟨0, 1, 0, 1, 1, 0⟩ : DoubleMut).w2 := by
  refine ⟨by decide, C7_no_self_mutation_double ['A', 'C'] _ (by decide)⟩

/-- One entry of the `mutlist` built by `format_output_single`: the pieces of
the emitted mutation string `wtAA + str(L_idx + 1) + mutAA`. -/
structure SingleMut where
  wtAA : Char
  pos : Nat
  mutAA : Char
deriving DecidableEq

/-- Embedding of `format_output_single`.  The grid is sliced to its first 20
amino-acid columns (`ddg = ddg[:, :20]`), `np.where(ddg <= threshold)` yields
the kept `(position, amino-acid)` indices in row-major order, and each kept
index is formatted with `ALPHABET[S[L_idx]]`, the 1-based position and
`ALPHABET[AA_idx]`.  Returns, like the source, the kept ddG values and the
mutation list. -/
def format_output_single (L : Nat) (ddg : Nat → Nat → ℚ) (S : Nat → Nat)
    (threshold : ℚ) : List ℚ × List SingleMut :=
  let keep := (List.range L).flatMap fun p =>
    ((List.range 20).filter fun a => ddg p a ≤ threshold).map fun a => (p, a)
  (keep.map fun pa => ddg pa.1 pa.2,
   keep.map fun pa => ⟨ALPHABET.getD (S pa.1) 'X', pa.1 + 1, ALPHABET.getD pa.2 'X'⟩)

/-- Composition run by `main` in single mode: `run_single_ssm` normalizes the
raw prediction grid against the wild type, then `format_output_single`
thresholds and formats it. -/
def run_single_pipeline (L : Nat) (ddg_raw : Nat → Nat → ℚ) (S : Nat → Nat)
    (threshold : ℚ) : List ℚ × List SingleMut :=
  format_output_single L (normalize_ddg ddg_raw S) S threshold

lemma mem_format_output_single {L : Nat} {ddg : Nat → Nat → ℚ} {S : Nat → Nat}
    {threshold : ℚ} {r : SingleMut} (h : r ∈ (format_output_single L ddg S threshold).2) :
    ∃ p a, p < L ∧ a < 20 ∧ ddg p a ≤ threshold ∧
      r = ⟨ALPHABET.getD (S p) 'X', p + 1, ALPHABET.getD a 'X'⟩ := by
  unfold format_output_single at h
  simp only [List.mem_map, List.mem_flatMap, List.mem_filter, List.mem_range,
    decide_eq_true_eq] at h
  obtain ⟨⟨p, a⟩, ⟨p', hp', ⟨a', ⟨ha', hle⟩, heq⟩⟩, hr⟩ := h
  cases heq
  exact ⟨p, a, hp', ha', hle, hr.symm⟩

/-- C10: single-mode formatting only inspects the first 20 amino-acid columns
of the grid, so for every grid and every threshold no emitted mutation has the
unknown/gap symbol 'X' as its mutant amino acid. -/
theorem C10_no_X_mutant (L : Nat) (ddg : Nat → Nat → ℚ) (S : Nat → Nat) (threshold : ℚ) :
    ∀ r ∈ (format_output_single L ddg S threshold).2, r.mutAA ≠ 'X' := by
  intro r hr
  obtain ⟨p, a, -, ha, -, rfl⟩ := mem_format_output_single hr
  have h20 : ∀ x < 20, ALPHABET.getD x 'X' ≠ 'X' := by decide
  exact h20 a ha

/-- Witness for C10 at a concrete grid, wild-type assignment and threshold. -/
theorem C10_no_X_mutant_witness :
    (⟨'A', 1, 'C'⟩ : SingleMut) ∈
      (format_output_single 1 (fun _ _ => 0) (fun _ => 0) 0).2 ∧
    (⟨'A', 1, 'C'⟩ : SingleMut).mutAA ≠ 'X' :=
  ⟨by decide, C10_no_X_mutant 1 (fun _ _ => 0) (fun _ => 0) 0 ⟨'A', 1, 'C'⟩ (by decide)⟩

/-- Counterexample to C6 as stated: with threshold `0` (a legal threshold
value), the normalized wild-type entry `0` passes the `ddg <= threshold`
filter, so the single-mode output contains the self-mutation record `A1A`
whose mutant amino acid equals its wild-type amino acid. -/
theorem C6_counterexample :
    ¬ (∀ r ∈ (run_single_pipeline 1 (fun _ _ => 0) (fun _ => 0) 0).2,
        r.mutAA ≠ r.wtAA) := by
  intro h
  have hn : normalize_ddg (fun _ _ => (0 : ℚ)) (fun _ => 0) = fun _ _ => 0 := by
    funext p a
    simp [normalize_ddg]
  have hmem : (⟨'A', 1, 'A'⟩ : SingleMut) ∈
      (run_single_pipeline 1 (fun _ _ => 0) (fun _ => 0) 0).2 := by
    unfold run_single_pipeline
    rw [hn]
    decide
  exact h ⟨'A', 1, 'A'⟩ hmem rfl

/-- C6 amended: for every strictly negative threshold, the single-mode
pipeline (wild-type normalization followed by thresholded formatting) emits no
record whose mutant amino acid equals the wild-type amino acid at its
position, because the normalized wild-type entry is exactly `0`.  (As stated,
the claim fails for thresholds `≥ 0`: see the counterexample.) -/
theorem C6_amended_no_self_mutation (L : Nat) (ddg_raw : Nat → Nat → ℚ)
    (S : Nat → Nat) (threshold : ℚ) (hT : threshold < 0) (hS : ∀ p, S p < 21) :
    ∀ r ∈ (run_single_pipeline L ddg_raw S threshold).2, r.mutAA ≠ r.wtAA := by
  intro r hr heq
  unfold run_single_pipeline at hr
  obtain ⟨p, a, -, ha, hle, rfl⟩ := mem_format_output_single hr
  have hinj : ∀ x < 20, ∀ y < 21, ALPHABET.getD x 'X' = ALPHABET.getD y 'X' → x = y := by
    decide
  have hA : a = S p := hinj a ha (S p) (hS p) heq
  rw [hA] at hle
  have h0 : normalize_ddg ddg_raw S p (S p) = 0 := sub_self _
  rw [h0] at hle
  exact absurd (lt_of_le_of_lt hle hT) (lt_irrefl 0)

/-- Witness for the amended C6 at a concrete grid and negative threshold. -/
theorem C6_amended_witness :
    ((-1 : ℚ) < 0) ∧
    (∀ r ∈ (run_single_pipeline 1 (fun _ a => if a = 0 then (0 : ℚ) else -1)
        (fun _ => 0) (-1)).2, r.mutAA ≠ r.wtAA) :=
  ⟨by norm_num,
    C6_amended_no_self_mutation 1 (fun _ a => if a = 0 then (0 : ℚ) else -1)
      (fun _ => 0) (-1) (by norm_num) (fun _ => by norm_num)⟩

/-- One row of the final output dataframe in the double-mutation modes
(`additive` and `epistatic`): predicted ddG and the integer parts of the two
halves of the `Mutation` string (`pos1`, `pos2`). -/
structure OutRowD where
  ddG : ℚ
  pos1 : Nat
  pos2 : Nat
deriving DecidableEq

/-- One row of the final output dataframe in single mode. -/
structure OutRowS where
  ddG : ℚ
  pos : Nat
deriving DecidableEq

/-- Sort key of `df.sort_values(by=['ddG (kcal/mol)'])` on double rows. -/
def byDdgD (r s : OutRowD) : Prop := r.ddG ≤ s.ddG

/-- Sort key of `df.sort_values(by=['ddG (kcal/mol)'])` on single rows. -/
def byDdgS (r s : OutRowS) : Prop := r.ddG ≤ s.ddG

/-- Sort key of `df.sort_values(by=['pos1', 'pos2'])` (lexicographic). -/
def byPosD (r s : OutRowD) : Prop :=
  r.pos1 < s.pos1 ∨ (r.pos1 = s.pos1 ∧ r.pos2 ≤ s.pos2)

instance : DecidableRel byDdgD := fun r s => inferInstanceAs (Decidable (r.ddG ≤ s.ddG))

instance : DecidableRel byDdgS := fun r s => inferInstanceAs (Decidable (r.ddG ≤ s.ddG))

instance : DecidableRel byPosD := fun r s =>
  inferInstanceAs (Decidable (r.pos1 < s.pos1 ∨ (r.pos1 = s.pos1 ∧ r.pos2 ≤ s.pos2)))

instance : IsTotal OutRowD byDdgD := ⟨fun r s => le_total r.ddG s.ddG⟩

instance : IsTrans OutRowD byDdgD := ⟨fun _ _ _ h1 h2 => le_trans h1 h2⟩

instance : IsTotal OutRowS byDdgS := ⟨fun r s => le_total r.ddG s.ddG⟩

instance : IsTrans OutRowS byDdgS := ⟨fun _ _ _ h1 h2 => le_trans h1 h2⟩

instance : IsTotal OutRowD byPosD := ⟨fun r s => by unfold byPosD; omega⟩

instance : IsTrans OutRowD byPosD := ⟨fun r s t h1 h2 => by
  unfold byPosD at h1 h2 ⊢
  omega⟩

/-- Embedding of the output post-processing at the end of `main` for the two
double-mutation modes (`args.mode != 'single'`):
`if args.threshold <= -0.: df = df.sort_values(by=['ddG (kcal/mol)'])`
(note that `-0.0 == 0.0`, so the guard is `threshold ≤ 0`), always followed by
`df = df.sort_values(by=['pos1', 'pos2'])`.  `List.insertionSort` stands for
`sort_values` on the respective key. -/
def main_sort_double (threshold : ℚ) (df : List OutRowD) : List OutRowD :=
  List.insertionSort byPosD
    (if threshold ≤ 0 then List.insertionSort byDdgD df else df)

/-- Embedding of the same post-processing in single mode, where the
unconditional position re-sort branch is not executed. -/
def main_sort_single (threshold : ℚ) (df : List OutRowS) : List OutRowS :=
  if threshold ≤ 0 then List.insertionSort byDdgS df else df

/-- Counterexample to C1 as stated: in a double mode with the (negative)
threshold `-1`, the final position re-sort overrides the ddG sort, so the
output is not sorted by ddG ascending. -/
theorem C1_counterexample :
    ¬ List.Sorted byDdgD (main_sort_double (-1) [⟨5, 1, 2⟩, ⟨-3, 2, 3⟩]) := by
  have hev : main_sort_double (-1) [⟨5, 1, 2⟩, ⟨-3, 2, 3⟩]
      = [⟨5, 1, 2⟩, ⟨-3, 2, 3⟩] := by decide
  rw [hev]
  intro h
  have h53 : byDdgD ⟨5, 1, 2⟩ ⟨-3, 2, 3⟩ :=
    List.rel_of_sorted_cons h ⟨-3, 2, 3⟩ (List.mem_singleton.2 rfl)
  unfold byDdgD at h53
  norm_num at h53

/-- C1 amended: in the double modes the final output is always sorted by
position (`pos1`, then `pos2`), for every threshold — the unconditional
position sort overrides the ddG sort.  In single mode the output is sorted by
ddG ascending whenever the threshold is `≤ 0` (note: this includes the
non-negative threshold `0`, because the code tests `threshold <= -0.0`), and
is left in formatting order otherwise — an order that is itself nondecreasing
in position. -/
theorem C1_amended_sort_behavior :
    (∀ (threshold : ℚ) (df : List OutRowD),
        List.Sorted byPosD (main_sort_double threshold df)) ∧
    (∀ (threshold : ℚ) (df : List OutRowS), threshold ≤ 0 →
        List.Sorted byDdgS (main_sort_single threshold df)) ∧
    (∀ (threshold : ℚ) (df : List OutRowS), ¬ threshold ≤ 0 →
        main_sort_single threshold df = df) ∧
    (∀ (L : Nat) (ddg : Nat → Nat → ℚ) (S : Nat → Nat) (threshold : ℚ),
        List.Sorted (fun r s : SingleMut => r.pos ≤ s.pos)
          ((format_output_single L ddg S threshold).2)) := by
  refine ⟨fun threshold df => List.sorted_insertionSort byPosD _,
    fun threshold df hT => ?_, fun threshold df hT => ?_,
    fun L ddg S threshold => ?_⟩
  · unfold main_sort_single
    rw [if_pos hT]
    exact List.sorted_insertionSort byDdgS df
  · unfold main_sort_single
    rw [if_neg hT]
  · unfold format_output_single
    dsimp only
    rw [List.map_flatMap]
    unfold List.Sorted
    rw [List.pairwise_flatMap]
    constructor
    · intro p hp
      rw [List.map_map, List.pairwise_map]
      exact List.pairwise_of_forall_mem_list fun a _ b _ => le_refl (p + 1)
    · refine (List.pairwise_lt_range L).imp ?_
      intro p1 p2 hlt x hx y hy
      simp only [List.map_map, List.mem_map] at hx hy
      obtain ⟨a1, -, rfl⟩ := hx
      obtain ⟨a2, -, rfl⟩ := hy
      exact Nat.succ_le_succ hlt.le

/-- Witness for the amended C1 at concrete thresholds and rows. -/
theorem C1_amended_sort_witness :
    ((-1 : ℚ) ≤ 0) ∧
    List.Sorted byDdgS (main_sort_single (-1) [⟨3, 1⟩, ⟨-2, 2⟩]) ∧
    (¬ (1 : ℚ) ≤ 0) ∧
    main_sort_single 1 [⟨3, 1⟩, ⟨-2, 2⟩] = [⟨3, 1⟩, ⟨-2, 2⟩] :=
  ⟨by norm_num, C1_amended_sort_behavior.2.1 (-1) _ (by norm_num), by norm_num,
    C1_amended_sort_behavior.2.2.1 1 _ (by norm_num)⟩

/-- Squared Euclidean distance between two 3-D points.
`scipy.spatial.distance.cdist` computes the Euclidean distance; for a
nonnegative cutoff `d` one has `dist ≤ d ↔ dist² ≤ d²`, so the filters below
compare squared quantities to stay inside `ℚ`. -/
def sqDist (x y : ℚ × ℚ × ℚ) : ℚ :=
  (x.1 - y.1) ^ 2 + (x.2.1 - y.2.1) ^ 2 + (x.2.2 - y.2.2) ^ 2

/-- Per-chain coordinate lists produced by the parser
(`coords_dict_chain['N_chain_...']`, `['CA_chain_...']`): backbone-nitrogen
and alpha-carbon coordinates, one triple per residue. -/
structure ParsedChain where
  N_chain : List (ℚ × ℚ × ℚ)
  CA_chain : List (ℚ × ℚ × ℚ)

/-- Embedding of `distance_filter`: the code reads
`coo = pdb[coord][f'N_chain_{ch}']` — the backbone *nitrogen* coordinates —
builds `dmat = cdist(coo, coo)` and keeps the rows with
`df['CA-CA Distance'] <= args.distance`.  Each row's positions are recovered
from the mutation string by `df['pos1'] = df['mut1'].str[1:-1].astype(int) - 1`,
hence the `- 1` below.  The real comparison `dist ≤ cutoff` is encoded as
`0 ≤ cutoff ∧ dist² ≤ cutoff²`. -/
def distance_filter (pdb : ParsedChain) (cutoff : ℚ) (df : List OutRowD) :
    List OutRowD :=
  df.filter fun r =>
    decide (0 ≤ cutoff ∧
      sqDist (pdb.N_chain.getD (r.pos1 - 1) (0, 0, 0))
        (pdb.N_chain.getD (r.pos2 - 1) (0, 0, 0)) ≤ cutoff ^ 2)

/-- The distance filter as the spec (and the code's own column name
`'CA-CA Distance'`) describes it: the wild-type Cα–Cα distance from the
parser's alpha-carbon coordinates `CA_chain`. -/
def distance_filter_CA (pdb : ParsedChain) (cutoff : ℚ) (df : List OutRowD) :
    List OutRowD :=
  df.filter fun r =>
    decide (0 ≤ cutoff ∧
      sqDist (pdb.CA_chain.getD (r.pos1 - 1) (0, 0, 0))
        (pdb.CA_chain.getD (r.pos2 - 1) (0, 0, 0)) ≤ cutoff ^ 2)

/-- C2 (code bug): on a structure whose two residues have nitrogen atoms 3 Å
apart but alpha carbons 20 Å apart, `distance_filter` with cutoff 10 retains
the double-mutation row even though its wild-type Cα–Cα distance exceeds the
cutoff; the Cα-based filter the spec describes removes it.  The code gathers
`N_chain` coordinates where its own output column (`'CA-CA Distance'`) and the
spec require alpha carbons. -/
theorem C2_distance_filter_uses_N_atoms :
    distance_filter ⟨[(0, 0, 0), (3, 0, 0)], [(0, 0, 0), (20, 0, 0)]⟩ 10
        [⟨-1, 1, 2⟩] = [⟨-1, 1, 2⟩] ∧
    ¬ sqDist ((0 : ℚ), (0 : ℚ), (0 : ℚ)) (20, 0, 0) ≤ 10 ^ 2 ∧
    distance_filter_CA ⟨[(0, 0, 0), (3, 0, 0)], [(0, 0, 0), (20, 0, 0)]⟩ 10
        [⟨-1, 1, 2⟩] = [] := by
  refine ⟨?_, by norm_num [sqDist], ?_⟩
  · unfold distance_filter
    rw [List.filter_cons]
    norm_num [sqDist]
  · unfold distance_filter_CA
    rw [List.filter_cons]
    norm_num [sqDist]

/-- Embedding of `idx = torch.where(E_idx_tmp[:, None, :] == mp_other)` for
one batch row: the neighbor slots `k` whose stored index equals the partner
(other mutated) position. -/
def matchIndices (E_idx_row : List Nat) (partner : Nat) : List Nat :=
  (List.range E_idx_row.length).filter fun k => E_idx_row.getD k 0 = partner

/-- Embedding of the per-row edge fill of `run_double`:
`edge = torch.full([B, C], nan)` then `edge[a, :] = mpnn_edges_tmp[a, c, :]`.
A row with at least one matching neighbor slot receives the edge features of
the last match (repeated advanced-index assignment leaves the last write in
place); a row with no match keeps its NaN initialization, modelled as `none`
entries. -/
def edge_fill (edges_row : List (List ℚ)) (E_idx_row : List Nat) (partner : Nat)
    (C : Nat) : List (Option ℚ) :=
  match (matchIndices E_idx_row partner).getLast? with
  | some k => (edges_row.getD k []).map some
  | none => List.replicate C none

/-- Embedding of `torch.nan_to_num(edge, nan=0)`: every NaN entry becomes `0`. -/
def nan_to_num (row : List (Option ℚ)) : List ℚ := row.map fun v => v.getD 0

/-- The edge vector concatenated into the per-position representation of one
batch row (`g_edge_embed`). -/
def gather_edge_row (edges_row : List (List ℚ)) (E_idx_row : List Nat)
    (partner : Nat) (C : Nat) : List ℚ :=
  nan_to_num (edge_fill edges_row E_idx_row partner C)

/-- C8: when the partner position of a mutated site does not occur in that
site's K-nearest-neighbor index list, the concatenated edge feature vector is
exactly the all-zero vector; and in every case each entry of the gathered
edge vector is either a real stored edge feature or exactly `0`, so no NaN
marker survives `nan_to_num` into the concatenated embedding. -/
theorem C8_edge_gather_zero_when_not_neighbor (edges_row : List (List ℚ))
    (E_idx_row : List Nat) (partner C : Nat) :
    (partner ∉ E_idx_row →
      gather_edge_row edges_row E_idx_row partner C = List.replicate C 0) ∧
    (∀ x ∈ gather_edge_row edges_row E_idx_row partner C,
      x = 0 ∨ ∃ k, x ∈ edges_row.getD k []) := by
  constructor
  · intro hnot
    have hmatch : matchIndices E_idx_row partner = [] := by
      refine List.filter_eq_nil_iff.2 fun k hk => ?_
      simp only [decide_eq_true_eq]
      intro hkp
      refine hnot ?_
      have hklt : k < E_idx_row.length := List.mem_range.1 hk
      rw [← hkp, List.getD_eq_getElem E_idx_row 0 hklt]
      exact List.getElem_mem hklt
    unfold gather_edge_row edge_fill nan_to_num
    rw [hmatch]
    simp
  · intro x hx
    unfold gather_edge_row edge_fill nan_to_num at hx
    rcases hlast : (matchIndices E_idx_row partner).getLast? with - | k
    · rw [hlast] at hx
      simp only [List.map_replicate, List.mem_replicate] at hx
      exact Or.inl hx.2
    · rw [hlast] at hx
      rw [List.map_map] at hx
      obtain ⟨v, hv, rfl⟩ := List.mem_map.1 hx
      exact Or.inr ⟨k, hv⟩

/-- Witness for C8: partner 5 is not a neighbor of the site with neighbor
list `[2, 3]`, so the gathered edge row is the zero vector; and a concrete
entry of a gathered row is of the stated form. -/
theorem C8_edge_gather_witness :
    ((5 : Nat) ∉ [2, 3] ∧
      gather_edge_row [[1, 1], [1, 1]] [2, 3] 5 2 = List.replicate 2 0) ∧
    ((0 : ℚ) = 0 ∨ ∃ k, (0 : ℚ) ∈ [[(1 : ℚ), 1], [1, 1]].getD k []) :=
  ⟨⟨by decide,
      (C8_edge_gather_zero_when_not_neighbor [[1, 1], [1, 1]] [2, 3] 5 2).1 (by decide)⟩,
    (C8_edge_gather_zero_when_not_neighbor [[1, 1], [1, 1]] [2, 3] 5 2).2 0 (by decide)⟩

/-- Embedding of `DataLoader(dataset, shuffle=False, batch_size=B)`: the
enumerated mutation list is cut into consecutive batches of `B` elements; the
final batch is smaller whenever the total is not a multiple of `B`. -/
def chunksOf {α : Type} (B : Nat) (l : List α) : List (List α) :=
  if h : B = 0 ∨ l.length = 0 then [] else l.take B :: chunksOf B (l.drop B)
termination_by l.length
decreasing_by
  simp only [not_or] at h
  have h1 : 0 < B := Nat.pos_of_ne_zero h.1
  have h2 : l.length ≠ 0 := h.2
  rw [List.length_drop]
  omega

/-- Per-batch body of `run_double`, at the shape level: the shared
single-structure tensors — replicated to the configured batch size by
`.repeat(args.batch_size, ...)` — are re-sliced to the actual batch size
(`mpnn_edges_raw[:REAL_batch_size, ...]`, `E_idx[:REAL_batch_size, ...]`,
`all_mpnn_hid[:REAL_batch_size, ...]`, `mpnn_embed[:REAL_batch_size, ...]`),
and the stability head then produces one prediction per batch member.
`shared` is the replicated shared state and `f` the opaque per-mutation
prediction (embedding gather, light attention and symmetrized ddG head). -/
def processBatch {σ μ : Type} (shared : List σ) (f : σ → μ → ℚ)
    (batch : List μ) : List ℚ :=
  ((shared.take batch.length).zip batch).map fun sm => f sm.1 sm.2

/-- Embedding of the batch loop of `run_double`
(`for b in tqdm(loader): ... preds += list(...)`). -/
def run_double_preds {σ μ : Type} (B : Nat) (shared : List σ) (f : σ → μ → ℚ)
    (muts : List μ) : List ℚ :=
  (chunksOf B muts).flatMap (processBatch shared f)

lemma length_le_of_mem_chunksOf {α : Type} {B : Nat} (l : List α) :
    ∀ c ∈ chunksOf B l, c.length ≤ B := by
  generalize hn : l.length = n
  induction n using Nat.strong_induction_on generalizing l with
  | _ n ih =>
    intro c hc
    rw [chunksOf] at hc
    split at hc
    · cases hc
    · rename_i h
      rcases List.mem_cons.1 hc with rfl | hc'
      · rw [List.length_take]
        omega
      · have hlen : (l.drop B).length < n := by
          simp only [not_or] at h
          rw [List.length_drop]
          omega
        exact ih _ hlen (l.drop B) rfl c hc'

lemma chunksOf_flatten {α : Type} {B : Nat} (hB : 0 < B) (l : List α) :
    (chunksOf B l).flatten = l := by
  generalize hn : l.length = n
  induction n using Nat.strong_induction_on generalizing l with
  | _ n ih =>
    rw [chunksOf]
    split
    · rename_i h
      rcases h with h | h
      · omega
      · rw [List.length_eq_zero.1 h]
        rfl
    · rename_i h
      have hlen : (l.drop B).length < n := by
        simp only [not_or] at h
        rw [List.length_drop]
        omega
      rw [List.flatten_cons, ih _ hlen (l.drop B) rfl, List.take_append_drop]

/-- C9: with a positive batch size and shared tensors replicated to exactly
that batch size, every batch of the sweep — in particular a smaller final
batch — is processed by re-slicing the shared tensors to the actual batch
size, yielding exactly one prediction per mutation in the batch, and the
whole sweep yields exactly one prediction per enumerated mutation. -/
theorem C9_last_batch_resliced {σ μ : Type} (B : Nat) (hB : 0 < B)
    (shared : List σ) (hs : shared.length = B) (f : σ → μ → ℚ) (muts : List μ) :
    (∀ batch ∈ chunksOf B muts,
      (processBatch shared f batch).length = batch.length) ∧
    (run_double_preds B shared f muts).length = muts.length := by
  have hpb : ∀ batch ∈ chunksOf B muts,
      (processBatch shared f batch).length = batch.length := by
    intro batch hb
    have hle : batch.length ≤ B := length_le_of_mem_chunksOf muts batch hb
    unfold processBatch
    rw [List.length_map, List.length_zip, List.length_take, hs]
    omega
  refine ⟨hpb, ?_⟩
  unfold run_double_preds
  rw [List.length_flatMap]
  have hmap : List.map (List.length ∘ processBatch shared f) (chunksOf B muts)
      = List.map List.length (chunksOf B muts) :=
    List.map_congr_left fun c hc => hpb c hc
  rw [hmap, ← List.length_flatten, chunksOf_flatten hB muts]

/-- Witness for C9: batch size 2 with 3 mutations (not a multiple of 2) — the
sweep still yields one prediction per mutation. -/
theorem C9_last_batch_witness :
    (0 < 2) ∧ ([(), ()].length = 2) ∧
    (run_double_preds 2 [(), ()] (fun _ _ => (0 : ℚ)) [0, 1, 2]).length
      = [0, 1, 2].length :=
  ⟨by decide, by decide,
    (C9_last_batch_resliced 2 (by decide) [(), ()] (by decide)
      (fun _ _ => (0 : ℚ)) [0, 1, 2]).2⟩

end ThermoMPNN
